import Mathlib

/-!
Verification of the timesheet application's core logic: a shallow embedding
of the pure functions of `src/TimesheetApp.jsx` and `src/Dashboard.jsx`
(weekly 40-hour cap enforcement, staging-row editing, commit to the durable
collection, and the dashboard aggregation functions), together with theorems
settling the specification's claims about them.

Modelling conventions:
* JavaScript numbers that the application ever stores in hour cells are
  integers, so they are embedded as `Int` (sums and the cap arithmetic are
  exact); the `Number(x) || 0` coercion pattern is embedded by `toNum`.
* A staging-row day cell holds either the blank string or a clamped
  integer, embedded as `Option Nat` (`none` is the blank).
* JavaScript `Map` and `Set` preserve insertion order; they are embedded as
  association lists (`List (α × β)`) and insertion-ordered duplicate-free
  lists, with `mapUpd` modelling `map.set` on top of `map.get`.
* `Date` values are embedded as an already-parsed `DateVal` record (the app
  itself writes `yyyy-MM-dd` strings); a missing, empty or unparseable
  `Week_Start` is `none`.  Timezone effects on `getFullYear`/`getMonth`
  are not modelled (the date's own components are used).
-/

namespace Timesheet

/-- Weekday columns collected by the UI: the `DAYS` constant
`["Mon","Tue","Wed","Thu","Fri"]` of `TimesheetApp.jsx`. -/
inductive Day where
  | mon
  | tue
  | wed
  | thu
  | fri
deriving DecidableEq

/-- The `DAYS` list of `TimesheetApp.jsx` (Monday to Friday). -/
def DAYS : List Day := [.mon, .tue, .wed, .thu, .fri]

/-- Dynamic JavaScript values that reach the numeric cells of a durable row,
classified by how `Number(x) || 0` coerces them: a number, a string that
parses as a number, the empty string, a non-numeric non-empty string,
`undefined`, and `null`. -/
inductive JSVal where
  | num (n : Int)
  | strNum (n : Int)
  | strEmpty
  | strOther
  | undef
  | nullv
deriving DecidableEq

/-- The coercion `Number(x) || 0` used throughout the source: numbers and
numeric strings give their value (`NaN` and `0` both fall to `0` through
`|| 0`), everything else gives `0`. -/
def toNum : JSVal → Int
  | .num n => n
  | .strNum n => n
  | _ => 0

/-- An arbitrary object as far as `sumWeek` reads it: the five weekday
properties (each may hold any dynamic value, `undef` standing for a missing
property). -/
structure WeekCells where
  Mon : JSVal
  Tue : JSVal
  Wed : JSVal
  Thu : JSVal
  Fri : JSVal
deriving DecidableEq

/-- Property read `entry[d]` on a `WeekCells` object. -/
def getCell (e : WeekCells) : Day → JSVal
  | .mon => e.Mon
  | .tue => e.Tue
  | .wed => e.Wed
  | .thu => e.Thu
  | .fri => e.Fri

/-- The exported pure util `sumWeek(entry)` of `TimesheetApp.jsx`:
`DAYS.reduce((s, d) => s + (Number(entry?.[d]) || 0), 0)`.  The optional
chaining `entry?.[d]` makes a `null`/`undefined` entry read as `undefined`
on every day, hence the `Option` argument.  The function is total: no input
makes it raise. -/
def sumWeek (entry : Option WeekCells) : Int :=
  DAYS.foldl
    (fun s d => s + toNum (match entry with | some e => getCell e d | none => .undef)) 0

/-- The exported pure util `allowedAfterCap(otherRowsTotal, thisOtherDays,
candidate)` of `TimesheetApp.jsx`:
`used = a + b; left = Math.max(0, 40 - used); return Math.min(left,
Math.max(0, candidate))`. -/
def allowedAfterCap (otherRowsTotal thisOtherDays candidate : Int) : Int :=
  let used := otherRowsTotal + thisOtherDays
  let left := max 0 (40 - used)
  min left (max 0 candidate)

/-- C1: for all non-negative `otherRowsTotal` and `thisOtherDays` and any
integer `candidate`, `allowedAfterCap` returns
`min (max 0 (40 - used)) (max 0 candidate)` with `used` the sum of the two
totals; in particular `allowedAfterCap 30 5 10 = 5` and
`allowedAfterCap 0 0 (-2) = 0` (the source's own self-test values). -/
theorem allowedAfterCap_formula (a b c : Int) (_ha : 0 ≤ a) (_hb : 0 ≤ b) :
    allowedAfterCap a b c = min (max 0 (40 - (a + b))) (max 0 c) ∧
    allowedAfterCap 30 5 10 = 5 ∧ allowedAfterCap 0 0 (-2) = 0 := by
  refine ⟨rfl, by decide, by decide⟩

/-- Witness for C1 at the concrete input `(0, 0, 7)`. -/
theorem allowedAfterCap_formula_holds :
    allowedAfterCap 0 0 7 = min (max 0 (40 - (0 + 0))) (max 0 7) ∧
    allowedAfterCap 30 5 10 = 5 ∧ allowedAfterCap 0 0 (-2) = 0 :=
  allowedAfterCap_formula 0 0 7 le_rfl le_rfl

/-- C2 counterexample: the claim says the result of `allowedAfterCap` lies in
`[0, min 24 (40 - a - b)]` whenever that bound is non-negative, and never
exceeds 24; but `allowedAfterCap` applies no per-day 24-hour ceiling (that
clamp lives in `updateEntry`, before this logic), so at
`(a, b, c) = (0, 0, 30)` the result is `30 > 24 = min 24 (40 - (0 + 0))`. -/
theorem allowedAfterCap_no_day_ceiling :
    allowedAfterCap 0 0 30 = 30 ∧
    ¬ allowedAfterCap 0 0 30 ≤ min 24 (40 - (0 + 0)) := by
  refine ⟨by decide, by decide⟩

/-- C2 amended: provided the candidate is at most 24 (which is how every
caller reaches this logic: `updateEntry` clamps the typed value to `[0, 24]`
first), the result lies in `[0, 24]`, is at most `min 24 (40 - a - b)` when
that bound is non-negative, and is `0` when that bound is negative. -/
theorem allowedAfterCap_range (a b c : Int) (ha : 0 ≤ a) (hb : 0 ≤ b)
    (hc : c ≤ 24) :
    (0 ≤ allowedAfterCap a b c ∧ allowedAfterCap a b c ≤ 24) ∧
    (0 ≤ min 24 (40 - (a + b)) →
      allowedAfterCap a b c ≤ min 24 (40 - (a + b))) ∧
    (min 24 (40 - (a + b)) < 0 → allowedAfterCap a b c = 0) := by
  simp only [allowedAfterCap]
  omega

/-- Witness for C2's amended claim at the concrete input `(30, 5, 10)`. -/
theorem allowedAfterCap_range_holds :
    (0 ≤ allowedAfterCap 30 5 10 ∧ allowedAfterCap 30 5 10 ≤ 24) ∧
    ((0 : Int) ≤ min 24 (40 - (30 + 5)) →
      allowedAfterCap 30 5 10 ≤ min 24 (40 - (30 + 5))) ∧
    (min 24 (40 - ((30 : Int) + 5)) < 0 → allowedAfterCap 30 5 10 = 0) :=
  allowedAfterCap_range 30 5 10 (by decide) (by decide) (by decide)

/-- C10: `sumWeek` is total over arbitrary entry objects and equals the sum
of the `Number(x) || 0` coercions of the five weekday properties; blank,
missing (`undefined`/`null`) and non-numeric values coerce to `0`. -/
theorem sumWeek_spec :
    (∀ e : WeekCells,
      sumWeek (some e) =
        toNum e.Mon + toNum e.Tue + toNum e.Wed + toNum e.Thu + toNum e.Fri) ∧
    sumWeek none = 0 ∧
    (∀ v : JSVal,
      toNum v = match v with | .num n => n | .strNum n => n | _ => 0) := by
  refine ⟨fun e => ?_, rfl, fun v => rfl⟩
  simp [sumWeek, DAYS, getCell]

/-! ## Staging rows and the cap-enforcing editor -/

/-- A staging-area row, as created by `blankEntry()` and mutated only by
`updateEntry`/`duplicateRow`: day cells hold either the blank string
(`none`) or a non-negative integer (every write clamps into `[0, 24]`). -/
structure Entry where
  id : Nat
  project : String
  businessUnit : String
  mon : Option Nat
  tue : Option Nat
  wed : Option Nat
  thu : Option Nat
  fri : Option Nat
  notes : String
deriving DecidableEq

/-- Property read `e[d]` for a day column of a staging row. -/
def getDay (e : Entry) : Day → Option Nat
  | .mon => e.mon
  | .tue => e.tue
  | .wed => e.wed
  | .thu => e.thu
  | .fri => e.fri

/-- Property write `e[d] = v` for a day column of a staging row. -/
def setDay (e : Entry) : Day → Option Nat → Entry
  | .mon, v => { e with mon := v }
  | .tue, v => { e with tue := v }
  | .wed, v => { e with wed := v }
  | .thu, v => { e with thu := v }
  | .fri, v => { e with fri := v }

/-- The helper `entryTotal(entry)` of `TimesheetApp.jsx`:
`DAYS.reduce((sum, day) => sum + (Number(entry?.[day]) || 0), 0)` (over a
staging row, where a blank cell coerces to 0). -/
def entryTotal (e : Entry) : Nat :=
  (DAYS.map (fun d => (getDay e d).getD 0)).sum

/-- The summed Mon-Fri hours across a whole staging state (the
`totalWeekHours` reduction of `TimesheetApp.jsx`). -/
def totalAll (l : List Entry) : Nat :=
  (l.map entryTotal).sum

/-- The `updateEntry(id, field, value)` state update of `TimesheetApp.jsx`,
restricted to day-cell fields (its `else` branch, for non-day fields such
as `project`, copies the value verbatim and is not involved in any claim).
The typed value is `none` for the empty string, `some n` for a string
`parseInt` reads as `n` (a string that parses as `NaN` behaves exactly like
`some 0`, since the source replaces `NaN` by `0` before clamping):
clamp to `[0, 24]`, then cap so the week-wide total cannot pass 40. -/
def updateEntry (prev : List Entry) (id : Nat) (field : Day)
    (value : Option Int) : List Entry :=
  prev.map (fun e =>
    if e.id ≠ id then e
    else
      match value with
      | none => setDay e field none
      | some v =>
        let numeric : Nat := (min 24 v).toNat
        let otherRowsTotal := totalAll (prev.filter (fun r => r.id ≠ id))
        let thisOtherDays :=
          ((DAYS.filter (· ≠ field)).map (fun d => (getDay e d).getD 0)).sum
        let proposed := otherRowsTotal + thisOtherDays + numeric
        if proposed > 40 then setDay e field (some (40 - (otherRowsTotal + thisOtherDays)))
        else setDay e field (some numeric))

/-- The `duplicateRow(id)` state update of `TimesheetApp.jsx`: find the row
with the given id and append a copy of it carrying a fresh id (`uid()`,
modelled as the parameter `newId`); no 40-hour check is involved. -/
def duplicateRow (prev : List Entry) (id newId : Nat) : List Entry :=
  match prev.find? (fun e => e.id == id) with
  | none => prev
  | some found => prev ++ [{ found with id := newId }]

/-- The other four weekday cells of a row, as summed by `updateEntry`. -/
def thisOtherDays (e : Entry) (field : Day) : Nat :=
  ((DAYS.filter (· ≠ field)).map (fun d => (getDay e d).getD 0)).sum

theorem entryTotal_split (e : Entry) (field : Day) :
    entryTotal e = thisOtherDays e field + (getDay e field).getD 0 := by
  cases field <;> simp [entryTotal, thisOtherDays, DAYS, getDay] <;> omega

theorem getDay_setDay_self (e : Entry) (field : Day) (v : Option Nat) :
    getDay (setDay e field v) field = v := by
  cases field <;> rfl

theorem thisOtherDays_setDay (e : Entry) (field : Day) (v : Option Nat) :
    thisOtherDays (setDay e field v) field = thisOtherDays e field := by
  cases field <;> simp [thisOtherDays, DAYS, getDay, setDay]

theorem setDay_id (e : Entry) (field : Day) (v : Option Nat) :
    (setDay e field v).id = e.id := by
  cases field <;> rfl

theorem entryTotal_setDay (e : Entry) (field : Day) (v : Option Nat) :
    entryTotal (setDay e field v) = thisOtherDays e field + v.getD 0 := by
  rw [entryTotal_split (setDay e field v) field, thisOtherDays_setDay,
    getDay_setDay_self]

/-- Splitting a mapped sum along a Boolean predicate. -/
theorem sum_map_split (l : List Entry) (g : Entry → Entry) (p : Entry → Bool) :
    totalAll (l.map g) =
      totalAll ((l.filter (fun e => ¬ p e)).map g) +
        totalAll ((l.filter p).map g) := by
  induction l with
  | nil => rfl
  | cons e t ih =>
    by_cases h : p e <;>
      simp [totalAll, h, List.filter_cons] at ih ⊢ <;> omega

theorem totalAll_filter_le (l : List Entry) (p : Entry → Bool) :
    totalAll (l.filter p) ≤ totalAll l := by
  induction l with
  | nil => exact le_refl _
  | cons e t ih =>
    by_cases h : p e <;> simp [totalAll, h, List.filter_cons] at ih ⊢ <;> omega

theorem filter_length_le_one (l : List Entry) (id : Nat)
    (h : (l.map Entry.id).Nodup) :
    (l.filter (fun e => e.id = id)).length ≤ 1 := by
  induction l with
  | nil => simp
  | cons e t ih =>
    simp only [List.map_cons, List.nodup_cons] at h
    by_cases he : e.id = id
    · have : t.filter (fun e => e.id = id) = [] := by
        rw [List.filter_eq_nil_iff]
        intro a ha
        simp only [decide_eq_true_eq]
        intro hid
        exact h.1 (by rw [he, ← hid]; exact List.mem_map_of_mem Entry.id ha)
      simp [List.filter_cons, he, this]
    · simpa [List.filter_cons, he] using ih h.2

/-- What C3 asserts of one `updateEntry` application: the state's summed
Mon-Fri hours stay at most 40 and the edited cell reads back in `[0, 24]`. -/
def updateEntrySafe (prev : List Entry) (id : Nat) (field : Day)
    (value : Option Int) : Prop :=
  totalAll (updateEntry prev id field value) ≤ 40 ∧
    ∀ e ∈ updateEntry prev id field value,
      e.id = id → (getDay e field).getD 0 ≤ 24

/-- C3: from any staging state with distinct row ids (as `uid()` produces)
whose summed Mon-Fri hours are at most 40, editing any one day cell of any
one row with any input value leaves the summed hours at most 40, and the
edited cell's stored value stays in `[0, 24]` (a blank input reads as 0). -/
theorem updateEntry_cap (prev : List Entry) (id : Nat) (field : Day)
    (value : Option Int) (hid : (prev.map Entry.id).Nodup)
    (h40 : totalAll prev ≤ 40) : updateEntrySafe prev id field value := by
  classical
  set p : Entry → Bool := fun e => e.id = id with hp
  -- The per-row edit function applied by the map.
  set g : Entry → Entry := fun e =>
    if e.id ≠ id then e
    else
      match value with
      | none => setDay e field none
      | some v =>
        let numeric : Nat := (min 24 v).toNat
        let otherRowsTotal := totalAll (prev.filter (fun r => r.id ≠ id))
        let thisOther :=
          ((DAYS.filter (· ≠ field)).map (fun d => (getDay e d).getD 0)).sum
        let proposed := otherRowsTotal + thisOther + numeric
        if proposed > 40 then setDay e field (some (40 - (otherRowsTotal + thisOther)))
        else setDay e field (some numeric) with hg
  have hupd : updateEntry prev id field value = prev.map g := rfl
  have hgid : ∀ e, ¬ p e → g e = e := by
    intro e he
    simp only [hp, decide_eq_true_eq] at he
    simp [hg, he]
  have hsplit := sum_map_split prev g p
  have hothers :
      totalAll ((prev.filter (fun e => ¬ p e)).map g) =
        totalAll (prev.filter (fun e => ¬ p e)) := by
    have : (prev.filter (fun e => ¬ p e)).map g =
        (prev.filter (fun e => ¬ p e)).map (fun e => e) := by
      apply List.map_congr_left
      intro e he
      exact hgid e (by simpa using (List.mem_filter.mp he).2)
    rw [this, List.map_id']
  have hofilter :
      prev.filter (fun e => ¬ p e) = prev.filter (fun r => r.id ≠ id) := by
    apply List.filter_congr
    intro e _
    simp [hp]
  -- Abbreviations used by the single-row bound.
  set O := totalAll (prev.filter (fun r => r.id ≠ id)) with hO
  have hOsum : O + totalAll (prev.filter p) ≤ 40 := by
    have := sum_map_split prev (fun e => e) p
    simp only [List.map_id'] at this
    rw [hofilter] at this
    omega
  -- The single matched row (if any) after the edit.
  have hone := filter_length_le_one prev id hid
  have hmatch : prev.filter p = [] ∨ ∃ e₀, prev.filter p = [e₀] := by
    cases hflt : prev.filter p with
    | nil => exact Or.inl rfl
    | cons a t =>
      right
      refine ⟨a, ?_⟩
      rw [hflt] at hone
      simp only [List.length_cons] at hone
      have : t = [] := List.length_eq_zero.mp (by omega)
      rw [this]
  rcases hmatch with hflt | ⟨e₀, hflt⟩
  · -- No row carries the id: the state is unchanged on every summand.
    have hnone : ∀ e ∈ prev, ¬ p e := by
      intro e he hpe
      have : e ∈ prev.filter p := List.mem_filter.mpr ⟨he, hpe⟩
      simp [hflt] at this
    constructor
    · rw [hupd, hsplit, hothers, hflt]
      simp only [List.map_nil]
      have : totalAll (prev.filter (fun e => ¬ p e)) ≤ totalAll prev :=
        totalAll_filter_le _ _
      simp only [totalAll, List.map_nil, List.sum_nil]
      simp only [totalAll] at this h40 ⊢
      omega
    · intro e he hpe
      rw [hupd] at he
      obtain ⟨a, ha, hae⟩ := List.mem_map.mp he
      by_cases hpa : p a
      · exact absurd hpa (hnone a ha)
      · rw [hgid a hpa] at hae
        subst hae
        exact absurd (by simpa [hp] using hpe) hpa
  · -- Exactly one row carries the id.
    have he₀ : p e₀ := (List.mem_filter.mp (by rw [hflt]; exact List.mem_cons_self _ _)).2
    have he₀id : e₀.id = id := by simpa [hp] using he₀
    -- Bound the edited row's new total.
    have hbound : O + entryTotal (g e₀) ≤ 40 ∧
        (getDay (g e₀) field).getD 0 ≤ 24 := by
      have hOe : O + entryTotal e₀ ≤ 40 := by
        rw [hflt] at hOsum
        simp only [totalAll, List.map_cons, List.map_nil, List.sum_cons,
          List.sum_nil] at hOsum
        omega
      have hT : thisOtherDays e₀ field ≤ entryTotal e₀ := by
        rw [entryTotal_split e₀ field]; omega
      simp only [hg, he₀id, ne_eq, not_true_eq_false, if_false]
      cases value with
      | none =>
        rw [entryTotal_setDay, getDay_setDay_self]
        simp only [Option.getD_none]
        constructor
        · have := entryTotal_split e₀ field
          omega
        · omega
      | some v =>
        simp only
        set numeric : Nat := (min 24 v).toNat with hnum
        have hn24 : numeric ≤ 24 := by
          rw [hnum]; omega
        have hTeq : ((DAYS.filter (· ≠ field)).map
            (fun d => (getDay e₀ d).getD 0)).sum = thisOtherDays e₀ field := rfl
        rw [hTeq]
        by_cases hprop : O + thisOtherDays e₀ field + numeric > 40
        · simp only [hprop, if_true]
          rw [entryTotal_setDay, getDay_setDay_self]
          simp only [Option.getD_some]
          omega
        · simp only [hprop, if_false]
          rw [entryTotal_setDay, getDay_setDay_self]
          simp only [Option.getD_some]
          omega
    constructor
    · rw [hupd, hsplit, hothers, hflt]
      simp only [List.map_cons, List.map_nil]
      have hO40 : totalAll (prev.filter (fun e => ¬ p e)) = O := by
        rw [hofilter]
      simp only [totalAll, List.map_cons, List.map_nil, List.sum_cons,
        List.sum_nil] at hO40 ⊢
      omega
    · intro e he hpe
      rw [hupd] at he
      obtain ⟨a, ha, hae⟩ := List.mem_map.mp he
      by_cases hpa : p a
      · have : a ∈ prev.filter p := List.mem_filter.mpr ⟨ha, hpa⟩
        rw [hflt] at this
        simp only [List.mem_singleton] at this
        subst this
        rw [← hae]
        exact hbound.2
      · rw [hgid a hpa] at hae
        subst hae
        exact absurd (by simpa [hp] using hpe) hpa

/-- Witness for C3: a two-row state totalling 39 hours, editing Friday of
row 2 with the over-large input 100 (clamped to 24, then capped to 9). -/
theorem updateEntry_cap_holds :
    updateEntrySafe
      [{ id := 1, project := "P", businessUnit := "B", mon := some 8,
         tue := some 8, wed := some 8, thu := none, fri := some 6,
         notes := "" },
       { id := 2, project := "Q", businessUnit := "B", mon := some 9,
         tue := none, wed := none, thu := none, fri := none, notes := "" }]
      2 .fri (some 100) :=
  updateEntry_cap _ 2 .fri (some 100) (by decide) (by decide)

/-- What C9 asserts of `duplicateRow`: the matched row is appended as an
exact copy (same project, business unit, day cells and notes) under a fresh
id, and — since no 40-hour check runs — some staging state totalling more
than 20 but at most 40 hours exceeds 40 hours after duplication. -/
def duplicateRowSpec (prev : List Entry) (id newId : Nat) (f : Entry) : Prop :=
  duplicateRow prev id newId = prev ++ [{ f with id := newId }] ∧
    ∃ (st : List Entry) (i n : Nat),
      totalAll st ≤ 40 ∧ 20 < totalAll st ∧ 40 < totalAll (duplicateRow st i n)

/-- C9: whenever `find` locates a row with the requested id, `duplicateRow`
appends a copy of it differing only in the id and performs no cap check;
consequently a staging state with between 21 and 40 summed hours can exceed
the 40-hour cap after duplication. -/
theorem duplicateRow_copies (prev : List Entry) (id newId : Nat) (f : Entry)
    (hfind : prev.find? (fun e => e.id == id) = some f) :
    duplicateRowSpec prev id newId f := by
  constructor
  · simp [duplicateRow, hfind]
  · exact ⟨[(⟨1, "P", "B", some 5, some 5, some 5, some 5, some 1, ""⟩ : Entry)],
      1, 2, by decide, by decide, by decide⟩

/-- Witness for C9 at a concrete one-row state. -/
theorem duplicateRow_copies_holds :
    duplicateRowSpec
      [{ id := 7, project := "P", businessUnit := "B", mon := some 3,
         tue := none, wed := none, thu := none, fri := none, notes := "x" }]
      7 8
      { id := 7, project := "P", businessUnit := "B", mon := some 3,
        tue := none, wed := none, thu := none, fri := none, notes := "x" } :=
  duplicateRow_copies _ 7 8 _ (by decide)

/-! ## Insertion-ordered maps and sets (JavaScript `Map` and `Set`)

The dashboard's aggregations all follow one pattern: loop over the rows,
and for each row update a `Map` entry under some key computed from the row
(`map.set(key, combine(map.get(key) || default, row))`).  JavaScript maps
iterate in insertion order, so they are embedded as association lists, and
the pattern is captured once by `gfold`, with `gfold_eq` characterising the
result as one entry per distinct key (in first-appearance order) holding the
fold of that key's rows. -/

section AList

variable {α β ρ : Type} [DecidableEq α]

/-- Model of `map.get(k)`: the value stored at the first (only) occurrence
of the key. -/
def alookup (k : α) : List (α × β) → Option β
  | [] => none
  | kv :: rest => if kv.1 = k then some kv.2 else alookup k rest

/-- Model of the `map.set(k, f(map.get(k)))` pattern: update the value in
place when the key is present (its position is kept, as in JavaScript),
append a new entry otherwise. -/
def mapUpd (m : List (α × β)) (k : α) (f : Option β → β) : List (α × β) :=
  match m with
  | [] => [(k, f none)]
  | kv :: rest =>
    if kv.1 = k then (kv.1, f (some kv.2)) :: rest
    else kv :: mapUpd rest k f

/-- Model of `set.add(k)` on a JavaScript `Set`: insertion-ordered,
duplicates ignored. -/
def insNew (ks : List α) (k : α) : List α := if k ∈ ks then ks else ks ++ [k]

/-- First occurrences of a list, in order: the key order a JavaScript map
or set built from `l` iterates in. -/
def dedupFirst (l : List α) : List α := l.foldl insNew []

theorem mapUpd_fst (m : List (α × β)) (k : α) (f : Option β → β) :
    (mapUpd m k f).map Prod.fst = insNew (m.map Prod.fst) k := by
  induction m with
  | nil => simp [mapUpd, insNew]
  | cons kv rest ih =>
    by_cases h : kv.1 = k
    · simp [mapUpd, insNew, h]
    · have hne : ¬ k = kv.1 := fun hk => h hk.symm
      simp only [mapUpd, if_neg h, List.map_cons, ih, insNew, List.mem_cons]
      by_cases hm : k ∈ rest.map Prod.fst
      · simp [hm, hne]
      · simp [hm, hne]

theorem alookup_mapUpd_self (m : List (α × β)) (k : α) (f : Option β → β) :
    alookup k (mapUpd m k f) = some (f (alookup k m)) := by
  induction m with
  | nil => simp [mapUpd, alookup]
  | cons kv rest ih =>
    by_cases h : kv.1 = k
    · simp [mapUpd, alookup, h]
    · simp [mapUpd, alookup, h, ih]

theorem alookup_mapUpd_other (m : List (α × β)) (k k' : α) (f : Option β → β)
    (h : k' ≠ k) : alookup k' (mapUpd m k f) = alookup k' m := by
  have hne : ¬ k = k' := fun hk => h hk.symm
  induction m with
  | nil => simp [mapUpd, alookup, hne]
  | cons kv rest ih =>
    by_cases hkv : kv.1 = k
    · simp [mapUpd, alookup, hkv, hne]
    · simp [mapUpd, alookup, hkv, ih]

theorem foldl_insNew_mem (l : List α) (acc : List α) (k : α) :
    k ∈ l.foldl insNew acc ↔ k ∈ acc ∨ k ∈ l := by
  induction l generalizing acc with
  | nil => simp
  | cons x t ih =>
    simp only [List.foldl_cons, ih, insNew, List.mem_cons]
    by_cases hx : x ∈ acc
    · simp [hx]
      constructor
      · intro h
        rcases h with h | h
        · exact Or.inl h
        · exact Or.inr (Or.inr h)
      · intro h
        rcases h with h | h | h
        · exact Or.inl h
        · exact Or.inl (h ▸ hx)
        · exact Or.inr h
    · simp [hx, List.mem_append]
      tauto

theorem foldl_insNew_nodup (l : List α) (acc : List α) (h : acc.Nodup) :
    (l.foldl insNew acc).Nodup := by
  induction l generalizing acc with
  | nil => exact h
  | cons x t ih =>
    simp only [List.foldl_cons]
    apply ih
    by_cases hx : x ∈ acc
    · simpa [insNew, hx] using h
    · simp only [insNew, hx, if_false]
      refine List.Nodup.append h (List.nodup_singleton x) ?_
      intro a ha hax
      rw [List.mem_singleton] at hax
      subst hax
      exact hx ha

theorem dedupFirst_mem (l : List α) (k : α) : k ∈ dedupFirst l ↔ k ∈ l := by
  simp [dedupFirst, foldl_insNew_mem]

theorem dedupFirst_nodup (l : List α) : (dedupFirst l).Nodup :=
  foldl_insNew_nodup l [] List.nodup_nil

theorem alookup_eq_none_iff (m : List (α × β)) (k : α) :
    alookup k m = none ↔ k ∉ m.map Prod.fst := by
  induction m with
  | nil => simp [alookup]
  | cons kv rest ih =>
    by_cases h : kv.1 = k
    · simp [alookup, h]
    · have hne : ¬ k = kv.1 := fun hk => h hk.symm
      simp [alookup, h, hne, ih]

/-- Two insertion-ordered maps with the same (duplicate-free) key sequence
and the same lookups are equal. -/
theorem alist_ext (l₁ l₂ : List (α × β))
    (hf : l₁.map Prod.fst = l₂.map Prod.fst)
    (hn : (l₁.map Prod.fst).Nodup)
    (hl : ∀ k, alookup k l₁ = alookup k l₂) : l₁ = l₂ := by
  induction l₁ generalizing l₂ with
  | nil =>
    cases l₂ with
    | nil => rfl
    | cons kv t => simp at hf
  | cons kv t ih =>
    cases l₂ with
    | nil => simp at hf
    | cons kv' t' =>
      simp only [List.map_cons, List.cons.injEq] at hf
      simp only [List.map_cons, List.nodup_cons] at hn
      have hv : some kv.2 = some kv'.2 := by
        have h1 := hl kv.1
        rw [alookup, alookup, if_pos rfl, if_pos hf.1.symm] at h1
        exact h1
      have hk : kv = kv' := Prod.ext hf.1 (Option.some.inj hv)
      refine List.cons_eq_cons.mpr ⟨hk, ih t' hf.2 hn.2 (fun k => ?_)⟩
      by_cases hkk : k = kv.1
      · subst hkk
        rw [(alookup_eq_none_iff t kv.1).mpr hn.1,
          (alookup_eq_none_iff t' kv.1).mpr (hf.2 ▸ hn.1)]
      · have h1 := hl k
        rw [alookup, alookup, if_neg (fun h : kv.1 = k => hkk h.symm),
          if_neg (fun h : kv'.1 = k => hkk (hf.1.trans h).symm)] at h1
        exact h1

theorem alookup_map_fn (ks : List α) (val : α → β) (hn : ks.Nodup) (k : α) :
    alookup k (ks.map (fun g => (g, val g))) =
      if k ∈ ks then some (val k) else none := by
  induction ks with
  | nil => simp [alookup]
  | cons x t ih =>
    simp only [List.nodup_cons] at hn
    by_cases hx : x = k
    · subst hx
      simp [alookup, hn.1]
    · have hne : ¬ k = x := fun h => hx h.symm
      simp [alookup, hx, ih hn.2, hne]

/-- A row present in a map with duplicate-free keys is what lookup finds. -/
theorem alookup_of_mem_nodup (m : List (α × β)) (kv : α × β)
    (hn : (m.map Prod.fst).Nodup) (hm : kv ∈ m) :
    alookup kv.1 m = some kv.2 := by
  induction m with
  | nil => simp at hm
  | cons x t ih =>
    simp only [List.map_cons, List.nodup_cons] at hn
    rcases List.mem_cons.mp hm with h | h
    · simp [alookup, h]
    · have hx : ¬ x.1 = kv.1 := by
        intro he
        exact hn.1 (he ▸ List.mem_map_of_mem Prod.fst h)
      simp [alookup, hx, ih hn.2 h]

/-- One loop of the dashboard pattern: fold the rows into a map, keyed by
`gk`, each row combining into its key's entry (which starts from
`dflt key`). -/
def gfold (upd : ρ → β → β) (dflt : α → β) (gk : ρ → α) (rows : List ρ) :
    List (α × β) :=
  rows.foldl (fun m r => mapUpd m (gk r) (fun o => upd r (o.getD (dflt (gk r))))) []

theorem mfold_fst (F : ρ → Option β → β) (gk : ρ → α) (rows : List ρ)
    (m : List (α × β)) :
    ((rows.foldl (fun m r => mapUpd m (gk r) (F r)) m).map Prod.fst) =
      (rows.map gk).foldl insNew (m.map Prod.fst) := by
  induction rows generalizing m with
  | nil => rfl
  | cons r t ih => simp [ih, mapUpd_fst]

theorem mfold_lookup (F : ρ → Option β → β) (gk : ρ → α) (rows : List ρ)
    (m : List (α × β)) (k : α) :
    alookup k (rows.foldl (fun m r => mapUpd m (gk r) (F r)) m) =
      (rows.filter (fun r => gk r = k)).foldl
        (fun o r => some (F r o)) (alookup k m) := by
  induction rows generalizing m with
  | nil => rfl
  | cons r t ih =>
    by_cases h : gk r = k
    · rw [List.foldl_cons, ih, List.filter_cons, if_pos (by simpa using h),
        List.foldl_cons, h, alookup_mapUpd_self]
    · rw [List.foldl_cons, ih, List.filter_cons, if_neg (by simpa using h),
        alookup_mapUpd_other _ _ _ _ (fun hk => h hk.symm)]

set_option linter.unusedSectionVars false in
theorem optfold_some (upd : ρ → β → β) (dflt : α → β) (gk : ρ → α)
    (ms : List ρ) (b : β) :
    ms.foldl (fun o r => some ((fun o => upd r (o.getD (dflt (gk r)))) o))
        (some b) =
      some (ms.foldl (fun b r => upd r b) b) := by
  induction ms generalizing b with
  | nil => rfl
  | cons r t ih => simp [ih]

theorem mem_map_iff_filter_ne_nil (gk : ρ → α) (rows : List ρ) (k : α) :
    k ∈ rows.map gk ↔ rows.filter (fun r => gk r = k) ≠ [] := by
  rw [ne_eq, List.filter_eq_nil_iff]
  simp only [List.mem_map, decide_eq_true_eq, not_forall]
  constructor
  · rintro ⟨r, hr, hk⟩
    exact ⟨r, hr, by simpa using hk⟩
  · rintro ⟨r, hr, hk⟩
    exact ⟨r, hr, by simpa using hk⟩

/-- Keys of the dashboard's map-building loop: the distinct row keys in
first-appearance order. -/
theorem gfold_fst (upd : ρ → β → β) (dflt : α → β) (gk : ρ → α)
    (rows : List ρ) :
    (gfold upd dflt gk rows).map Prod.fst = dedupFirst (rows.map gk) := by
  rw [gfold, mfold_fst]
  rfl

/-- Characterisation of the dashboard's map-building loop: the resulting
map holds one entry per distinct key, in order of first appearance, and the
entry for key `g` is the plain fold of `upd` over exactly the rows keyed
`g`, started from `dflt g`. -/
theorem gfold_eq (upd : ρ → β → β) (dflt : α → β) (gk : ρ → α)
    (rows : List ρ) :
    gfold upd dflt gk rows =
      (dedupFirst (rows.map gk)).map (fun g =>
        (g, (rows.filter (fun r => gk r = g)).foldl
          (fun b r => upd r b) (dflt g))) := by
  apply alist_ext
  · rw [gfold, mfold_fst]
    simp only [List.map_map]
    have : (Prod.fst ∘ fun g =>
        (g, (rows.filter (fun r => gk r = g)).foldl
          (fun b r => upd r b) (dflt g))) = id := rfl
    rw [this, List.map_id, dedupFirst, List.map_nil]
  · rw [gfold, mfold_fst]
    exact foldl_insNew_nodup _ _ List.nodup_nil
  · intro k
    rw [gfold, mfold_lookup,
      alookup_map_fn _ _ (dedupFirst_nodup _) k]
    simp only [alookup]
    by_cases hk : k ∈ rows.map gk
    · simp only [(dedupFirst_mem _ _).mpr hk, if_true]
      have hne := (mem_map_iff_filter_ne_nil gk rows k).mp hk
      cases hflt : rows.filter (fun r => gk r = k) with
      | nil => exact absurd hflt hne
      | cons r0 rest =>
        have hr0 : gk r0 = k := by
          have : r0 ∈ rows.filter (fun r => gk r = k) := by
            rw [hflt]; exact List.mem_cons_self _ _
          simpa using (List.mem_filter.mp this).2
        simp only [List.foldl_cons, Option.getD_none, hr0]
        rw [optfold_some]
    · have hd : k ∉ dedupFirst (rows.map gk) := fun h =>
        hk ((dedupFirst_mem _ _).mp h)
      simp only [hd, if_false]
      have hflt : rows.filter (fun r => gk r = k) = [] := by
        by_contra hne
        exact hk ((mem_map_iff_filter_ne_nil gk rows k).mpr hne)
      rw [hflt]
      rfl

end AList

/-! ## Durable rows and the dashboard -/

/-- A calendar date as the application's `yyyy-MM-dd` strings denote one
(the `Week_Start` values it writes).  `getFullYear`/`getMonth` reads are
modelled by the date's own components (timezone effects are out of scope). -/
structure DateVal where
  year : Int
  month : Nat
  dayOfMonth : Nat
deriving DecidableEq

/-- The `String(n).padStart(len, "0")` pattern of the key builders. -/
def padZeros (s : String) (n : Nat) : String :=
  if s.length < n then String.mk (List.replicate (n - s.length) '0') ++ s
  else s

/-- Rendering of a `DateVal` back to the `yyyy-MM-dd` string the app stores
in `Week_Start` (`format(start, "yyyy-MM-dd")`). -/
def wsStr (d : DateVal) : String :=
  toString d.year ++ "-" ++ padZeros (toString d.month) 2 ++ "-" ++
    padZeros (toString d.dayOfMonth) 2

/-- A row of the durable collection (`db`), with the field names of the
source.  Numeric cells hold dynamic values (`JSVal`) because edited rows
receive raw input strings; `Week_Start` is `none` when the stored string is
missing, empty or does not parse as a date (the `!d || isNaN(d)` test). -/
structure DbRow where
  ID : String
  Year : Int
  ISO_Week : Int
  Week_Start : Option DateVal
  Person : String
  Project : String
  Business_Unit : String
  Mon : JSVal
  Tue : JSVal
  Wed : JSVal
  Thu : JSVal
  Fri : JSVal
  Sat : JSVal
  Sun : JSVal
  Total : JSVal
  Notes : String
  Created_At : String
deriving DecidableEq

/-- The weekday sum `Mon+Tue+Wed+Thu+Fri` of a durable row under the
`Number(x) || 0` coercion. -/
def dbWeekSum (r : DbRow) : Int :=
  toNum r.Mon + toNum r.Tue + toNum r.Wed + toNum r.Thu + toNum r.Fri

/-- The `toWeekKey(row)` helper of `Dashboard.jsx`: `"{y}-W{ww}"` from the
parsed `Week_Start` year and the (zero-padded) `ISO_Week`, falling back to
`"{yyyy}-W{ww}"` built from `Year`/`ISO_Week` when `Week_Start` is missing
or invalid (`Year` and `ISO_Week` render as the empty string when 0, which
is how `row?.Year || ""` and `row?.ISO_Week || ""` behave). -/
def toWeekKey (r : DbRow) : String :=
  match r.Week_Start with
  | some d =>
    toString d.year ++ "-W" ++ padZeros (toString r.ISO_Week) 2
  | none =>
    padZeros (if r.Year = 0 then "" else toString r.Year) 4 ++ "-W" ++
      padZeros (if r.ISO_Week = 0 then "" else toString r.ISO_Week) 2

/-- The `toMonthKey(row)` helper of `Dashboard.jsx`: `"{y}-{mm}"` from the
parsed `Week_Start`, falling back to `Year` and the literal month `"01"`. -/
def toMonthKey (r : DbRow) : String :=
  match r.Week_Start with
  | some d => toString d.year ++ "-" ++ padZeros (toString d.month) 2
  | none => (if r.Year = 0 then "" else toString r.Year) ++ "-01"

/-- The `r?.[key] || "—"` read of `groupTotals`, for the three dimension
keys the dashboard passes. -/
inductive Dim where
  | person
  | project
  | businessUnit
deriving DecidableEq

/-- Raw dimension read `r?.[key]`. -/
def dimRaw (r : DbRow) : Dim → String
  | .person => r.Person
  | .project => r.Project
  | .businessUnit => r.Business_Unit

/-- Bucket key `r?.[key] || "—"` (the empty string is the only falsy
string). -/
def groupKey (r : DbRow) (key : Dim) : String :=
  if dimRaw r key = "" then "—" else dimRaw r key

/-- The per-bucket accumulator of `groupTotals`:
`{ name, total: 0, people: new Set(), projects: new Set() }`. -/
structure GAgg where
  name : String
  total : Int
  people : List String
  projects : List String
deriving DecidableEq

/-- One row folded into a bucket accumulator, exactly as the loop body of
`groupTotals` does it. -/
def gUpd (r : DbRow) (a : GAgg) : GAgg :=
  let a1 := { a with total := a.total + toNum r.Total }
  let a2 := if r.Person ≠ "" then { a1 with people := insNew a1.people r.Person }
    else a1
  if r.Project ≠ "" then { a2 with projects := insNew a2.projects r.Project }
  else a2

/-- A bucket as `groupTotals` returns it. -/
structure Bucket where
  name : String
  total : Int
  peopleCount : Nat
  projectsCount : Nat
deriving DecidableEq

/-- The `groupTotals(rows, key)` aggregation of `Dashboard.jsx`: fold each
row into the map entry of its `groupKey`, then project every accumulator to
`{name, total, peopleCount, projectsCount}` in map (= insertion) order. -/
def groupTotals (rows : List DbRow) (key : Dim) : List Bucket :=
  (gfold gUpd (fun g => ⟨g, 0, [], []⟩) (fun r => groupKey r key) rows).map
    (fun p => ⟨p.2.name, p.2.total, p.2.people.length, p.2.projects.length⟩)

theorem gUpd_fold_name (ms : List DbRow) (a : GAgg) :
    (ms.foldl (fun b r => gUpd r b) a).name = a.name := by
  induction ms generalizing a with
  | nil => rfl
  | cons r t ih =>
    rw [List.foldl_cons, ih]
    simp only [gUpd]
    by_cases hp : r.Person ≠ "" <;> by_cases hq : r.Project ≠ "" <;>
      simp [hp, hq]

theorem gUpd_fold_total (ms : List DbRow) (a : GAgg) :
    (ms.foldl (fun b r => gUpd r b) a).total =
      a.total + (ms.map (fun r => toNum r.Total)).sum := by
  induction ms generalizing a with
  | nil => simp
  | cons r t ih =>
    rw [List.foldl_cons, ih]
    have : (gUpd r a).total = a.total + toNum r.Total := by
      simp only [gUpd]
      by_cases hp : r.Person ≠ "" <;> by_cases hq : r.Project ≠ "" <;>
        simp [hp, hq]
    rw [this]
    simp only [List.map_cons, List.sum_cons]
    omega

theorem gUpd_fold_people (ms : List DbRow) (a : GAgg) :
    (ms.foldl (fun b r => gUpd r b) a).people =
      ((ms.map (fun r => r.Person)).filter (fun s => s ≠ "")).foldl insNew
        a.people := by
  induction ms generalizing a with
  | nil => rfl
  | cons r t ih =>
    rw [List.foldl_cons, ih]
    simp only [List.map_cons, List.filter_cons]
    by_cases hp : r.Person ≠ ""
    · rw [if_pos (by simpa using hp), List.foldl_cons]
      have : (gUpd r a).people = insNew a.people r.Person := by
        simp only [gUpd]
        by_cases hq : r.Project ≠ "" <;> simp [hp, hq]
      rw [this]
    · rw [if_neg (by simpa using hp)]
      have : (gUpd r a).people = a.people := by
        simp only [gUpd]
        by_cases hq : r.Project ≠ "" <;> simp [hp, hq]
      rw [this]

theorem gUpd_fold_projects (ms : List DbRow) (a : GAgg) :
    (ms.foldl (fun b r => gUpd r b) a).projects =
      ((ms.map (fun r => r.Project)).filter (fun s => s ≠ "")).foldl insNew
        a.projects := by
  induction ms generalizing a with
  | nil => rfl
  | cons r t ih =>
    rw [List.foldl_cons, ih]
    simp only [List.map_cons, List.filter_cons]
    by_cases hq : r.Project ≠ ""
    · rw [if_pos (by simpa using hq), List.foldl_cons]
      have : (gUpd r a).projects = insNew a.projects r.Project := by
        simp only [gUpd]
        by_cases hp : r.Person ≠ "" <;> simp [hp, hq]
      rw [this]
    · rw [if_neg (by simpa using hq)]
      have : (gUpd r a).projects = a.projects := by
        simp only [gUpd]
        by_cases hp : r.Person ≠ "" <;> simp [hp, hq]
      rw [this]

/-- The number of elements an insertion-ordered set ends with is the number
of distinct values fed into it. -/
theorem dedupFirst_length_card (l : List String) :
    (dedupFirst l).length = l.toFinset.card := by
  have hsub : (dedupFirst l).toFinset = l.toFinset := by
    ext x
    simp [List.mem_toFinset, dedupFirst_mem]
  rw [← hsub, List.toFinset_card_of_nodup (dedupFirst_nodup l)]

/-- C7: `groupTotals` yields one bucket per distinct dimension value (the
empty/missing value bucketed under the sentinel `"—"`), in insertion order
of first appearance; each bucket's total is the sum of its member rows'
`Total` fields under the `Number(x) || 0` coercion, and its people/project
counts are the numbers of distinct non-empty `Person`/`Project` values among
its member rows — so a row with `Total` 0 still creates/joins its bucket and
still counts. -/
theorem groupTotals_spec (rows : List DbRow) (key : Dim) :
    groupTotals rows key =
      (dedupFirst (rows.map (fun r => groupKey r key))).map (fun g =>
        let ms := rows.filter (fun r => groupKey r key = g)
        ⟨g, (ms.map (fun r => toNum r.Total)).sum,
          ((ms.map (fun r => r.Person)).filter (fun s => s ≠ "")).toFinset.card,
          ((ms.map (fun r => r.Project)).filter (fun s => s ≠ "")).toFinset.card⟩) := by
  rw [groupTotals, gfold_eq, List.map_map]
  apply List.map_congr_left
  intro g hg
  simp only [Function.comp_apply]
  rw [gUpd_fold_name, gUpd_fold_total, gUpd_fold_people, gUpd_fold_projects]
  have hp : (((rows.filter (fun r => groupKey r key = g)).map
      (fun r => r.Person)).filter (fun s => s ≠ "")).foldl insNew
        ([] : List String) =
      dedupFirst (((rows.filter (fun r => groupKey r key = g)).map
        (fun r => r.Person)).filter (fun s => s ≠ "")) := rfl
  have hq : (((rows.filter (fun r => groupKey r key = g)).map
      (fun r => r.Project)).filter (fun s => s ≠ "")).foldl insNew
        ([] : List String) =
      dedupFirst (((rows.filter (fun r => groupKey r key = g)).map
        (fun r => r.Project)).filter (fun s => s ≠ "")) := rfl
  rw [hp, hq, dedupFirst_length_card, dedupFirst_length_card, zero_add]

/-! ## Monthly proportionality per project (`monthlyProportion`) -/

/-- One project's share of a month, as `monthlyProportion` emits it. -/
structure ProjShare where
  name : String
  hours : Int
  pct : Int
deriving DecidableEq

/-- One output row of `monthlyProportion`. -/
structure MonthRow where
  month : String
  total : Int
  projects : List ProjShare
deriving DecidableEq

/-- JavaScript `Math.round`: round half toward positive infinity,
`⌊x + 1/2⌋` (hours are integers, so the argument is an exact rational). -/
def jsRound (q : ℚ) : ℤ := ⌊q + 1/2⌋

/-- The percentage computation of `monthlyProportion`:
`total ? Math.round((hours/total)*100) : 0`. -/
def pctOf (hours total : Int) : Int :=
  if total = 0 then 0 else jsRound ((hours : ℚ) / (total : ℚ) * 100)

/-- The `r.Project || "—"` key of the dashboard's project maps. -/
def projOr (r : DbRow) : String := if r.Project = "" then "—" else r.Project

/-- The `monthlyProportion` memo of `Dashboard.jsx`: one pass builds
`monthTotals` (month key to hours) and `monthProject` (month key to a
project-to-hours map); then months are sorted ascending (the default
lexicographic array sort) and each month maps its project entries to
`{name, hours, pct}`, sorted descending by hours. -/
def monthlyProportion (db : List DbRow) : List MonthRow :=
  let monthTotals :=
    gfold (fun r t => t + toNum r.Total) (fun _ => (0 : Int)) toMonthKey db
  let monthProject :=
    gfold (fun r mp => mapUpd mp (projOr r) (fun o => o.getD 0 + toNum r.Total))
      (fun _ => ([] : List (String × Int))) toMonthKey db
  let months :=
    List.insertionSort (fun a b => a ≤ b) (monthTotals.map Prod.fst)
  months.map (fun mk =>
    let total := (alookup mk monthTotals).getD 0
    let mp := (alookup mk monthProject).getD []
    let projects :=
      List.insertionSort (fun a b : ProjShare => b.hours ≤ a.hours)
        (mp.map (fun p => ⟨p.1, p.2, pctOf p.2 total⟩))
    ⟨mk, total, projects⟩)

/-- Specification-side restatement of `monthlyProportion`: group the rows by
month key (fallback semantics inside `toMonthKey`), sort the distinct month
keys ascending; per month, total the member rows and group them by project,
each project carrying its summed hours and its rounded percentage of the
month total, sorted descending by hours. -/
def monthlySpec (db : List DbRow) : List MonthRow :=
  (List.insertionSort (fun a b => a ≤ b) (dedupFirst (db.map toMonthKey))).map
    (fun mk =>
      let ms := db.filter (fun r => toMonthKey r = mk)
      let total := (ms.map (fun r => toNum r.Total)).sum
      ⟨mk, total,
        List.insertionSort (fun a b : ProjShare => b.hours ≤ a.hours)
          ((dedupFirst (ms.map projOr)).map (fun p =>
            ⟨p, ((ms.filter (fun r => projOr r = p)).map
                (fun r => toNum r.Total)).sum,
              pctOf ((ms.filter (fun r => projOr r = p)).map
                (fun r => toNum r.Total)).sum total⟩))⟩)

instance : IsTotal ProjShare (fun a b => b.hours ≤ a.hours) :=
  ⟨fun a b => le_total b.hours a.hours⟩

instance : IsTrans ProjShare (fun a b => b.hours ≤ a.hours) :=
  ⟨fun _ _ _ h h2 => le_trans h2 h⟩

theorem foldl_add_toNum (ms : List DbRow) (a : Int) :
    ms.foldl (fun t r => t + toNum r.Total) a =
      a + (ms.map (fun r => toNum r.Total)).sum := by
  induction ms generalizing a with
  | nil => simp
  | cons r t ih =>
    rw [List.foldl_cons, ih]
    simp only [List.map_cons, List.sum_cons]
    omega

theorem monthlyProportion_eq (db : List DbRow) :
    monthlyProportion db = monthlySpec db := by
  simp only [monthlyProportion, monthlySpec]
  rw [gfold_fst]
  apply List.map_congr_left
  intro mk hmk
  rw [List.mem_insertionSort] at hmk
  have hmem : mk ∈ db.map toMonthKey := (dedupFirst_mem _ _).mp hmk
  have htot :
      alookup mk (gfold (fun r t => t + toNum r.Total) (fun _ => (0 : Int))
        toMonthKey db) =
      some ((db.filter (fun r => toMonthKey r = mk)).map
        (fun r => toNum r.Total)).sum := by
    rw [gfold_eq, alookup_map_fn _ _ (dedupFirst_nodup _), if_pos hmk,
      foldl_add_toNum, zero_add]
  have hproj :
      alookup mk (gfold
        (fun r mp => mapUpd mp (projOr r) (fun o => o.getD 0 + toNum r.Total))
        (fun _ => ([] : List (String × Int))) toMonthKey db) =
      some (gfold (fun r h => h + toNum r.Total) (fun _ => (0 : Int)) projOr
        (db.filter (fun r => toMonthKey r = mk))) := by
    rw [gfold_eq, alookup_map_fn _ _ (dedupFirst_nodup _), if_pos hmk]
    rfl
  rw [htot, hproj]
  simp only [Option.getD_some]
  have hinner := gfold_eq (fun (r : DbRow) (h : Int) => h + toNum r.Total)
    (fun _ => (0 : Int)) projOr (db.filter (fun r => toMonthKey r = mk))
  rw [hinner, List.map_map]
  refine congrArg (MonthRow.mk mk _) (congrArg _ (List.map_congr_left ?_))
  intro p hp
  simp only [Function.comp_apply]
  rw [foldl_add_toNum, zero_add]

/-- C8: `monthlyProportion` groups rows into months keyed from `Week_Start`
(falling back to `Year` with the literal month `"01"` inside `toMonthKey`),
totals each month, and within each month groups by project, each project's
`pct` being `Math.round((hours/monthTotal)*100)` — ordinary round-half-up
(`⌊x + 1/2⌋`, e.g. `12.5% ↦ 13`, not banker's rounding) and `0` when the
month total is `0`; months come out sorted ascending by key, projects within
a month descending by hours; a 40-hour month split 30/10 gives 75 and 25. -/
theorem monthlyProportion_spec :
    (∀ db : List DbRow, monthlyProportion db = monthlySpec db) ∧
    (∀ db : List DbRow,
      List.Sorted (fun a b : String => a ≤ b)
        ((monthlyProportion db).map (fun m => m.month))) ∧
    (∀ db : List DbRow, ∀ m ∈ monthlyProportion db,
      List.Sorted (fun a b : ProjShare => b.hours ≤ a.hours) m.projects ∧
        ∀ p ∈ m.projects, p.pct = pctOf p.hours m.total) ∧
    (∀ h : Int, pctOf h 0 = 0) ∧
    (∀ h t : Int, t ≠ 0 →
      pctOf h t = ⌊(h : ℚ) / (t : ℚ) * 100 + 1 / 2⌋) ∧
    pctOf 30 40 = 75 ∧ pctOf 10 40 = 25 ∧ pctOf 1 8 = 13 := by
  refine ⟨monthlyProportion_eq, fun db => ?_, fun db m hm => ?_, fun h => ?_,
    fun h t ht => ?_, ?_, ?_, ?_⟩
  · have : (monthlyProportion db).map (fun m => m.month) =
        List.insertionSort (fun a b => a ≤ b)
          (dedupFirst (db.map toMonthKey)) := by
      rw [monthlyProportion_eq, monthlySpec, List.map_map]
      exact List.map_id' _
    rw [this]
    exact List.sorted_insertionSort _ _
  · rw [monthlyProportion_eq, monthlySpec] at hm
    obtain ⟨mk, hmk, hbody⟩ := List.mem_map.mp hm
    constructor
    · rw [← hbody]
      exact List.sorted_insertionSort _ _
    · intro p hp
      rw [← hbody] at hp
      simp only at hp
      rw [List.mem_insertionSort] at hp
      obtain ⟨q, hq, hpq⟩ := List.mem_map.mp hp
      rw [← hpq, ← hbody]
  · simp [pctOf]
  · simp [pctOf, ht, jsRound]
  · rw [pctOf, if_neg (by decide), jsRound]
    norm_num
  · rw [pctOf, if_neg (by decide), jsRound]
    norm_num
  · rw [pctOf, if_neg (by decide), jsRound]
    norm_num

/-! ## Weekly series by person for a project (`weeklyByPersonForProject`) -/

/-- Prefix test over character lists (needle, hay), used to model
JavaScript `String.prototype.includes`. -/
def charsMatch : List Char → List Char → Bool
  | [], _ => true
  | _ :: _, [] => false
  | c :: cs, h :: hs => c = h && charsMatch cs hs

/-- Occurrence scan for `hay.includes(needle)` (needle first argument). -/
def hasSubAux (needle : List Char) : List Char → Bool
  | [] => needle.isEmpty
  | c :: hs => charsMatch needle (c :: hs) || hasSubAux needle hs

/-- JavaScript `hay.includes(needle)`. -/
def strIncl (hay needle : String) : Bool :=
  hasSubAux needle.toList hay.toList

/-- JavaScript `k.split("-W")`, specialised to the two-character separator
the dashboard uses: greedy left-to-right scan splitting at every
non-overlapping occurrence of `-W`. -/
def splitDashW : List Char → List Char → List (List Char)
  | acc, [] => [acc.reverse]
  | acc, '-' :: 'W' :: rest => acc.reverse :: splitDashW [] rest
  | acc, c :: rest => splitDashW (c :: acc) rest

/-- The `k.split("-W")[1]` read of the series heuristic: the second chunk
of the split; when the split has no second chunk, JavaScript yields
`undefined`, which `includes` coerces to the string `"undefined"`. -/
def wkDigits (k : String) : String :=
  ((splitDashW [] k.toList).map (fun cs => String.mk cs)).getD 1 "undefined"

/-- The per-week value lookup of `weeklyByPersonForProject`: scan the
person's stored week keys for the first whose ISO-week digit pair occurs
inside the week label (`ws.includes(k.split("-W")[1])`) and take its stored
value; when that leaves 0 (no key matched, or the matched value was 0), try
a direct lookup of the label itself. -/
def heurVal (m : List (String × Int)) (ws : String) : Int :=
  let val :=
    match m.find? (fun kv => strIncl ws (wkDigits kv.1)) with
    | some kv => kv.2
    | none => 0
  if val = 0 then (alookup ws m).getD 0 else val

/-- The `r.Person || "—"` fallback of the dashboard's per-person maps. -/
def personOr (r : DbRow) : String := if r.Person = "" then "—" else r.Person

/-- The label added to `allWeeks` per row: `r.Week_Start || wk` (the stored
week-start string when present, else the synthesised week key). -/
def weekLabel (r : DbRow) : String :=
  match r.Week_Start with
  | some d => wsStr d
  | none => toWeekKey r

/-- The `byPersonMap` of `weeklyByPersonForProject`: person (with the `"—"`
fallback) to a map from week key to summed `Total`. -/
def personWeekMap (rows : List DbRow) : List (String × List (String × Int)) :=
  gfold (fun r m => mapUpd m (toWeekKey r) (fun o => o.getD 0 + toNum r.Total))
    (fun _ => []) personOr rows

/-- One output entry of `weeklyByPersonForProject`. -/
structure SeriesRow where
  person : String
  series : List Int
  total : Int
  weeksLabels : List String
deriving DecidableEq

/-- The `weeklyByPersonForProject` memo of `Dashboard.jsx`: for an empty
project filter return `[]`; otherwise restrict to the project's rows, build
the per-person week maps and the insertion-ordered union of week labels,
sort the labels ascending, give every person a series over the sorted labels
through the `heurVal` string-matching heuristic, and sort the entries
descending by their series total. -/
def weeklyByPersonForProject (db : List DbRow) (projectFilter : String) :
    List SeriesRow :=
  if projectFilter = "" then []
  else
    let rows := db.filter (fun r => r.Project = projectFilter)
    let byPersonMap := personWeekMap rows
    let weeksSorted :=
      List.insertionSort (fun a b => a ≤ b) (dedupFirst (rows.map weekLabel))
    let pre := byPersonMap.map (fun pm =>
      let series := weeksSorted.map (fun ws => heurVal pm.2 ws)
      ⟨pm.1, series, series.foldl (fun s n => s + n) 0, weeksSorted⟩)
    List.insertionSort (fun a b : SeriesRow => b.total ≤ a.total) pre

instance : IsTotal SeriesRow (fun a b => b.total ≤ a.total) :=
  ⟨fun a b => le_total b.total a.total⟩

instance : IsTrans SeriesRow (fun a b => b.total ≤ a.total) :=
  ⟨fun _ _ _ h h2 => le_trans h2 h⟩

/-- C4 counterexample: one row for project `"P"`, person `"A"`, ISO week
11, week start `2025-03-10`, 5 hours.  The union label is the week-start
string `"2025-03-10"`, which does not contain the digit pair `"11"` of the
stored key `"2025-W11"`, so the heuristic yields a series of `[0]` (total 0)
even though the person has 5 hours that week. -/
theorem weeklyByPersonForProject_cex :
    weeklyByPersonForProject
      [{ ID := "r1", Year := 2025, ISO_Week := 11,
         Week_Start := some ⟨2025, 3, 10⟩, Person := "A", Project := "P",
         Business_Unit := "BU", Mon := .num 0, Tue := .num 0, Wed := .num 5,
         Thu := .num 0, Fri := .num 0, Sat := .num 0, Sun := .num 0,
         Total := .num 5, Notes := "", Created_At := "" }] "P" =
      [⟨"A", [0], 0, ["2025-03-10"]⟩] ∧
    toNum (JSVal.num 5) = 5 ∧ (0 : Int) ≠ 5 := by
  refine ⟨by decide, rfl, by decide⟩

theorem foldl_add_int (l : List Int) (a : Int) :
    l.foldl (fun s n => s + n) a = a + l.sum := by
  induction l generalizing a with
  | nil => simp
  | cons x t ih =>
    rw [List.foldl_cons, ih]
    simp only [List.sum_cons]
    omega

/-- What the amended C4 asserts of `weeklyByPersonForProject`: one entry per
distinct person of the project's rows, entries sorted descending by total,
every series aligned index-by-index to the ascending-sorted union of week
labels with the total summing the series — but the per-week values come from
the `heurVal` substring heuristic applied to the person's week map (not, in
general, the person's summed hours at that week). -/
def weeklySeriesShape (db : List DbRow) (proj : String) : Prop :=
  let rows := db.filter (fun r => r.Project = proj)
  let weeksSorted :=
    List.insertionSort (fun a b => a ≤ b) (dedupFirst (rows.map weekLabel))
  let out := weeklyByPersonForProject db proj
  (out.map (fun e => e.person)).Perm (dedupFirst (rows.map personOr)) ∧
  List.Sorted (fun a b : SeriesRow => b.total ≤ a.total) out ∧
  ∀ e ∈ out,
    e.weeksLabels = weeksSorted ∧
    e.series.length = weeksSorted.length ∧
    e.total = e.series.sum ∧
    ∃ m, alookup e.person (personWeekMap rows) = some m ∧
      e.series = weeksSorted.map (fun ws => heurVal m ws)

/-- C4 amended: for a non-empty project filter, `weeklyByPersonForProject`
has the shape of `weeklySeriesShape` — the claim's alignment, one-entry-per-
person and descending-by-total parts hold, while the per-week values are
the heuristic's, which the counterexample shows are not the per-week sums. -/
theorem weeklyByPersonForProject_shape (db : List DbRow) (proj : String)
    (h : proj ≠ "") : weeklySeriesShape db proj := by
  simp only [weeklySeriesShape]
  have hout : weeklyByPersonForProject db proj =
      List.insertionSort (fun a b : SeriesRow => b.total ≤ a.total)
        ((personWeekMap (db.filter (fun r => r.Project = proj))).map (fun pm =>
          let series :=
            (List.insertionSort (fun a b => a ≤ b)
              (dedupFirst ((db.filter (fun r => r.Project = proj)).map
                weekLabel))).map (fun ws => heurVal pm.2 ws)
          ⟨pm.1, series, series.foldl (fun s n => s + n) 0,
            List.insertionSort (fun a b => a ≤ b)
              (dedupFirst ((db.filter (fun r => r.Project = proj)).map
                weekLabel))⟩)) := by
    rw [weeklyByPersonForProject, if_neg h]
  rw [hout]
  refine ⟨?_, List.sorted_insertionSort _ _, ?_⟩
  · refine List.Perm.trans
      (List.Perm.map (fun e : SeriesRow => e.person)
        (List.perm_insertionSort _ _)) ?_
    rw [List.map_map]
    show ((personWeekMap (db.filter (fun r => r.Project = proj))).map
        Prod.fst).Perm
      (dedupFirst ((db.filter (fun r => r.Project = proj)).map personOr))
    rw [personWeekMap, gfold_fst]
  · intro e he
    rw [List.mem_insertionSort] at he
    obtain ⟨pm, hpm, hpe⟩ := List.mem_map.mp he
    subst hpe
    refine ⟨rfl, List.length_map _ _, ?_, pm.2, ?_, rfl⟩
    · simp only
      rw [foldl_add_int, zero_add]
    · have hnd : ((personWeekMap (db.filter (fun r => r.Project = proj))).map
          Prod.fst).Nodup := by
        rw [personWeekMap, gfold_fst]
        exact dedupFirst_nodup _
      exact alookup_of_mem_nodup _ pm hnd hpm

/-- Witness for the amended C4 at the counterexample row. -/
theorem weeklyByPersonForProject_shape_holds :
    weeklySeriesShape
      [{ ID := "r1", Year := 2025, ISO_Week := 11,
         Week_Start := some ⟨2025, 3, 10⟩, Person := "A", Project := "P",
         Business_Unit := "BU", Mon := .num 0, Tue := .num 0, Wed := .num 5,
         Thu := .num 0, Fri := .num 0, Sat := .num 0, Sun := .num 0,
         Total := .num 5, Notes := "", Created_At := "" }] "P" :=
  weeklyByPersonForProject_shape _ "P" (by decide)

/-! ## Committing the staging area and editing durable rows -/

/-- One committed row, as `appendToDatabase` pushes it: the weekday cells
coerced to numbers, `Sat`/`Sun` zero, `Total` the recomputed weekday sum,
the week's metadata, and the stamped `createdAt`.  The id is
`"{year}-{toTwo(isoWeek)}-{person}-{idx+1}"` with `idx` the entry's position
in the staging list. -/
def mkRow (person : String) (year isoWeek : Int) (weekStart : DateVal)
    (createdAt : String) (idx : Nat) (e : Entry) : DbRow :=
  { ID := toString year ++ "-" ++ padZeros (toString isoWeek) 2 ++ "-" ++
      person ++ "-" ++ toString (idx + 1),
    Year := year, ISO_Week := isoWeek, Week_Start := some weekStart,
    Person := person, Project := e.project, Business_Unit := e.businessUnit,
    Mon := .num ((getDay e .mon).getD 0), Tue := .num ((getDay e .tue).getD 0),
    Wed := .num ((getDay e .wed).getD 0), Thu := .num ((getDay e .thu).getD 0),
    Fri := .num ((getDay e .fri).getD 0), Sat := .num 0, Sun := .num 0,
    Total := .num (entryTotal e), Notes := e.notes, Created_At := createdAt }

/-- The `appendToDatabase` commit of `TimesheetApp.jsx` (its effect on the
local durable collection `db`; the optional remote upsert sends the same
rows, without `total`, which the store's schema declares as a generated
column): bail out when no person is selected, otherwise append every staging
entry whose recomputed weekday total is strictly positive. -/
def appendToDatabase (entries : List Entry) (db : List DbRow)
    (person : String) (year isoWeek : Int) (weekStart : DateVal)
    (createdAt : String) : List DbRow :=
  if person = "" then db
  else
    db ++ entries.enum.filterMap (fun p =>
      if 0 < entryTotal p.2 then
        some (mkRow person year isoWeek weekStart createdAt p.1 p.2)
      else none)

/-- Specification-side form of the committed suffix: exactly the staging
entries with positive weekday totals, in order, through `mkRow`. -/
def commitRows (entries : List Entry) (person : String) (year isoWeek : Int)
    (weekStart : DateVal) (createdAt : String) : List DbRow :=
  (entries.enum.filter (fun p => 0 < entryTotal p.2)).map (fun p =>
    mkRow person year isoWeek weekStart createdAt p.1 p.2)

/-- What C6 asserts of a commit: the durable collection is extended by
exactly the positive-total staging entries, and every appended row carries
`Total` equal to its recomputed weekday sum (strictly positive) and the
stamped `createdAt`. -/
def appendSpecOk (entries : List Entry) (db : List DbRow) (person : String)
    (year isoWeek : Int) (weekStart : DateVal) (createdAt : String) : Prop :=
  appendToDatabase entries db person year isoWeek weekStart createdAt =
    db ++ commitRows entries person year isoWeek weekStart createdAt ∧
  ∀ r ∈ commitRows entries person year isoWeek weekStart createdAt,
    toNum r.Total = dbWeekSum r ∧ 0 < toNum r.Total ∧ r.Created_At = createdAt

theorem filterMap_guard {γ δ : Type} (l : List γ) (p : γ → Prop)
    [DecidablePred p] (f : γ → δ) :
    l.filterMap (fun x => if p x then some (f x) else none) =
      (l.filter (fun x => p x)).map f := by
  induction l with
  | nil => rfl
  | cons x t ih =>
    by_cases h : p x
    · rw [List.filterMap_cons, if_pos h, List.filter_cons,
        if_pos (by simpa using h), List.map_cons, ih]
    · rw [List.filterMap_cons, if_neg h, List.filter_cons,
        if_neg (by simpa using h), ih]

theorem mkRow_total_eq (person : String) (year isoWeek : Int)
    (weekStart : DateVal) (createdAt : String) (idx : Nat) (e : Entry) :
    toNum (mkRow person year isoWeek weekStart createdAt idx e).Total =
      dbWeekSum (mkRow person year isoWeek weekStart createdAt idx e) := by
  simp only [mkRow, dbWeekSum, toNum, entryTotal, DAYS, getDay, List.map_cons,
    List.map_nil, List.sum_cons, List.sum_nil]
  push_cast
  ring

/-- C6: with a person selected, committing appends to the durable collection
exactly those staging entries whose weekday sum `Mon+...+Fri` is strictly
positive — in staging order, each carrying `Total` equal to that recomputed
sum and the stamped `Created_At` — and drops every zero-total entry. -/
theorem appendToDatabase_commit (entries : List Entry) (db : List DbRow)
    (person : String) (year isoWeek : Int) (weekStart : DateVal)
    (createdAt : String) (h : person ≠ "") :
    appendSpecOk entries db person year isoWeek weekStart createdAt := by
  constructor
  · rw [appendToDatabase, if_neg h, commitRows, filterMap_guard]
  · intro r hr
    rw [commitRows] at hr
    obtain ⟨p, hp, hpr⟩ := List.mem_map.mp hr
    have hpos : 0 < entryTotal p.2 := by
      simpa using (List.mem_filter.mp hp).2
    subst hpr
    refine ⟨mkRow_total_eq _ _ _ _ _ _ _, ?_, rfl⟩
    simp only [mkRow, toNum]
    exact_mod_cast hpos

/-- Witness for C6: a two-entry staging area (8 hours on Monday; all cells
blank) commits exactly the first entry. -/
theorem appendToDatabase_commit_holds :
    appendSpecOk
      [⟨1, "P", "B", some 8, none, none, none, none, "n"⟩,
       ⟨2, "Q", "B", none, none, none, none, none, ""⟩]
      [] "Ana" 2025 11 ⟨2025, 3, 10⟩ "2025-03-12T00:00:00Z" :=
  appendToDatabase_commit _ _ _ _ _ _ _ (by decide)

/-- A raw row of the `timesheet_entries` store, as `loadFromSupabaseForWeek`
receives it.  The store's schema (`supabase/migrations/..._init_timesheet.sql`)
declares `total` as a stored generated column
`mon+tue+wed+thu+fri`, so fetched rows satisfy the sum invariant; the client
neither checks nor recomputes it. -/
structure SupaRow where
  id : String
  year : Int
  iso_week : Int
  week_start : Option DateVal
  person : String
  project : String
  business_unit : String
  mon : JSVal
  tue : JSVal
  wed : JSVal
  thu : JSVal
  fri : JSVal
  sat : JSVal
  sun : JSVal
  total : JSVal
  notes : String
  created_at : String
deriving DecidableEq

/-- The `mapFromSupabase(r)` field renaming of `TimesheetApp.jsx`: a pure
carry of every stored field — `Total` included — into the local row shape. -/
def mapFromSupabase (r : SupaRow) : DbRow :=
  { ID := r.id, Year := r.year, ISO_Week := r.iso_week,
    Week_Start := r.week_start, Person := r.person, Project := r.project,
    Business_Unit := r.business_unit, Mon := r.mon, Tue := r.tue,
    Wed := r.wed, Thu := r.thu, Fri := r.fri, Sat := r.sat, Sun := r.sun,
    Total := r.total, Notes := r.notes, Created_At := r.created_at }

/-- The local-state effect of `saveEditRow` (`setDb(prev => prev.map(r =>
r.ID === editingId ? { ...editingValues } : r))`): the edited row replaces
the original verbatim — `Total` is carried from `editingValues`, not
recomputed (and `changeEditing` stores raw input strings in the day cells). -/
def saveEditRow (db : List DbRow) (editingId : String)
    (editingValues : DbRow) : List DbRow :=
  db.map (fun r => if r.ID = editingId then editingValues else r)

/-- C5 (code-bug evidence): start from a durable row of 40 hours
(`Total = 40`), edit Monday from 8 to the typed string `"0"` and save.  The
locally saved row keeps `Total = 40` while its weekday sum is 32 — the
row-edit save path carries `Total` instead of recomputing it, contradicting
the invariant that the store's own schema enforces via its generated
`total` column.  `mapFromSupabase` likewise carries `total` verbatim (the
schema, not the client, is what keeps fetched rows consistent). -/
theorem saveEditRow_stale_total :
    (saveEditRow
      [{ ID := "X", Year := 2025, ISO_Week := 11,
         Week_Start := some ⟨2025, 3, 10⟩, Person := "A", Project := "P",
         Business_Unit := "BU", Mon := .num 8, Tue := .num 8, Wed := .num 8,
         Thu := .num 8, Fri := .num 8, Sat := .num 0, Sun := .num 0,
         Total := .num 40, Notes := "", Created_At := "t" }]
      "X"
      { ID := "X", Year := 2025, ISO_Week := 11,
        Week_Start := some ⟨2025, 3, 10⟩, Person := "A", Project := "P",
        Business_Unit := "BU", Mon := .strNum 0, Tue := .num 8, Wed := .num 8,
        Thu := .num 8, Fri := .num 8, Sat := .num 0, Sun := .num 0,
        Total := .num 40, Notes := "", Created_At := "t" }).map
      (fun r => (toNum r.Total, dbWeekSum r)) = [(40, 32)] ∧
    (40 : Int) ≠ 32 ∧
    ∀ s : SupaRow, (mapFromSupabase s).Total = s.total := by
  exact ⟨by decide, by decide, fun s => rfl⟩

end Timesheet
